import Mathlib

/-
Verification development for the lea build system (views, DAG execution
engine, cache store, DuckDB table-reference translation).

Python strings are embedded as lists of characters (`PyStr`).  A `ViewKey`
is, as in the source, a tuple of strings, embedded as `List PyStr`.
Fallible Python code (code that can raise) is embedded with `Option` or
`Except PyErr`.
-/

set_option autoImplicit false

namespace Lea

abbrev PyStr := List Char

abbrev ViewKey := List PyStr

/-- Python exception kinds that the embedded code can raise. -/
inductive PyErr where
  | nameError
  | valueError
  | indexError
  | typeError
  deriving DecidableEq, Repr

/-! ### Python string primitives

`breakOn c0 sep s` embeds Python `s.split(sep, 1)` followed by unpacking
into exactly two variables, for the non-empty separator `c0 :: sep`:
it returns `some (before, after)` split at the first occurrence of the
separator, and `none` (Python: `ValueError` on unpacking) when the
separator does not occur.

`splitOn c0 sep s` embeds Python `s.split(sep)` for the non-empty
separator `c0 :: sep` (in particular `[].splitOn = [[]]`, matching
Python, where splitting the empty string yields `[""]`).

`joinSep sep xs` embeds Python `sep.join(xs)`.
-/

def breakOn (c0 : Char) (sep : List Char) : List Char → Option (List Char × List Char)
  | [] => none
  | c :: rest =>
    if (c0 :: sep).isPrefixOf (c :: rest) then
      some ([], rest.drop sep.length)
    else
      match breakOn c0 sep rest with
      | none => none
      | some (a, b) => some (c :: a, b)

def splitOnGo (c0 : Char) (sep : List Char) : Nat → List Char → List (List Char)
  | _, [] => [[]]
  | 0, s => [s]
  | fuel + 1, c :: rest =>
    if (c0 :: sep).isPrefixOf (c :: rest) then
      [] :: splitOnGo c0 sep fuel (rest.drop sep.length)
    else
      match splitOnGo c0 sep fuel rest with
      | [] => [[c]]
      | p :: ps => (c :: p) :: ps

def splitOn (c0 : Char) (sep : List Char) (s : List Char) : List (List Char) :=
  splitOnGo c0 sep s.length s

def joinSep (sep : List Char) : List (List Char) → List Char
  | [] => []
  | [x] => x
  | x :: y :: rest => x ++ sep ++ joinSep sep (y :: rest)

/-! ### DuckDB client: ViewKey and table-reference translation

Embeds `src/lea/clients/duckdb.py`.  A client is characterised by its
database stem (`self.path.stem`) and optional username.  `lea._SEP` is
the fixed flattening separator; its value `"__"` is fixed by the
doctests of `_view_key_to_table_reference` and
`_table_reference_to_view_key` in `duckdb.py`
(`("schema", "subschema", "table") <-> "schema.subschema__table"`).
-/

def sepSEP : List Char := ['_', '_']

/-- Python truthiness of `self.username` (an `Option` of a string):
`None` and the empty string are falsy. -/
def usernameTruthy : Option PyStr → Bool
  | none => false
  | some u => !u.isEmpty

/-- Embeds `DuckDB._view_key_to_table_reference`.  Returns `none` for the
empty key, where Python unpacking `schema, *leftover = view_key` raises
`ValueError`. -/
def view_key_to_table_reference (stem : PyStr) (username : Option PyStr)
    (view_key : ViewKey) (with_username : Bool) : Option PyStr :=
  match view_key with
  | [] => none
  | schema :: leftover =>
    let table_reference := schema ++ '.' :: joinSep sepSEP leftover
    if with_username && usernameTruthy username then
      some (stem ++ '.' :: table_reference)
    else
      some table_reference

/-- Embeds `DuckDB._table_reference_to_view_key`.  Returns `none` where
Python raises `ValueError` (a `split(".", 1)` that does not produce two
parts). -/
def table_reference_to_view_key (stem : PyStr) (table_reference : PyStr) :
    Option ViewKey :=
  match breakOn '.' [] table_reference with
  | none => none
  | some (database, leftover) =>
    if database = stem then
      match breakOn '.' [] leftover with
      | none => none
      | some (schema, leftover2) => some (schema :: splitOn '_' ['_'] leftover2)
    else
      some (database :: splitOn '_' ['_'] leftover)

/-! ### `run.py`: table reference mapping, orphan cleanup, cache save, summary -/

/-- One logical-to-physical entry of the table reference mapping:
`(reference without scope, reference with user scope)` for a key. -/
def referencePair (stem : PyStr) (username : Option PyStr) (k : ViewKey) :
    Option (PyStr × PyStr) :=
  match view_key_to_table_reference stem username k false,
        view_key_to_table_reference stem username k true with
  | some a, some b => some (a, b)
  | _, _ => none

/-- Embeds `_make_table_reference_mapping` from `src/lea/app/run.py`.
With `freeze_unselected = false` it returns the dictionary mapping every
key of the dag to its user-scoped reference (`.error .valueError` if a
key is empty).  With `freeze_unselected = true` the source evaluates
`if not select:` where `select` is an undefined name, so the call raises
`NameError` (and even without that line, the dictionary built from
`selected_view_keys` is never returned: the function would fall through
and return `None`). -/
def make_table_reference_mapping (stem : PyStr) (username : Option PyStr)
    (dagKeys : List ViewKey) (selected_view_keys : List ViewKey)
    (freeze_unselected : Bool) : Except PyErr (Option (List (PyStr × PyStr))) :=
  if freeze_unselected then
    .error .nameError
  else
    match dagKeys.mapM (referencePair stem username) with
    | none => .error .valueError
    | some pairs => .ok (some pairs)

/-- Embeds the orphan-removal loop of `run` (`src/lea/app/run.py`,
lines 110-117).  For each physical `table_reference` enumerated by
`client.list_tables()`, derive its ViewKey; keys present in the dag are
left alone; otherwise the key is deleted (unless `dry`) and the
reference is reported.  Returns `(deleted keys, reported references)`,
or `.error .valueError` where `_table_reference_to_view_key` raises. -/
def orphanSweep (stem : PyStr) (dagKeys : List ViewKey) (dry : Bool) :
    List PyStr → Except PyErr (List ViewKey × List PyStr)
  | [] => .ok ([], [])
  | tr :: rest =>
    match table_reference_to_view_key stem tr with
    | none => .error .valueError
    | some k =>
      if k ∈ dagKeys then
        orphanSweep stem dagKeys dry rest
      else
        match orphanSweep stem dagKeys dry rest with
        | .error e => .error e
        | .ok (dels, reps) =>
          .ok ((if dry then dels else k :: dels), tr :: reps)

/-- Embeds the cache-save expression of `run` (`src/lea/app/run.py`,
lines 212-227).  `all_done` is `not exceptions and not skipped`; when it
holds the persisted cache is empty, otherwise it is the previous cache
unioned with the executed views that are neither errored nor skipped.
(The file write/unlink encodes exactly this set: an absent file is the
empty cache.) -/
def saveCache (cache execution_order exceptions skipped : List ViewKey) :
    List ViewKey :=
  if exceptions = [] ∧ skipped = [] then
    []
  else
    cache ++ execution_order.filter (fun v => v ∉ exceptions ∧ v ∉ skipped)

/-- The cache-save rule as claim C3 words it: the previous cache unioned
with this run's succeeding views, the whole union restricted to views
neither errored nor skipped. -/
def saveCacheClaimed (cache execution_order exceptions skipped : List ViewKey) :
    List ViewKey :=
  if exceptions = [] ∧ skipped = [] then
    []
  else
    (cache ++ execution_order).filter (fun v => v ∉ exceptions ∧ v ∉ skipped)

/-- Embeds the summary block of `run` (`src/lea/app/run.py`,
lines 229-251): whether the run raises the aggregate
`Exception("Some views failed to build")`.  The block is behind
`if silent: return`, then behind `if exceptions:`, then behind
`if fail_fast:`. -/
def runOutcomeRaises (silent fail_fast : Bool) (exceptions : List ViewKey) :
    Bool :=
  if silent then false
  else if exceptions = [] then false
  else fail_fast

/-! ### The execution engine (`run`, `src/lea/app/run.py`, lines 149-251)

The control loop is embedded as a deterministic transition system.  The
DAG scheduling protocol (`dag.prepare` / `is_active` / `get_ready` /
`done`) lives in repository code outside `src/` and is modelled from the
spec, section 4.2.  Job completion is modelled with every submitted job
observed complete at the poll that follows its submission (one
admissible schedule of the worker pool); the `fails` oracle of the
configuration decides whether a materialization job raises.
-/

/-- Which payload is submitted for a selected, non-skipped ready view
(`src/lea/app/run.py`, lines 182-196): `_do_nothing` for dry runs and
cache hits, `pretty_print_view` under print mode, otherwise
`client.materialize_view`. -/
inductive JobKind where
  | noop
  | printView
  | materialize
  deriving DecidableEq, Repr

/-- Run configuration and external collaborators of the engine.
`depKeys v` models `map(client._table_reference_to_view_key,
dag[v].dependencies)` as used on line 177; `selected` models
`dag.select(*select) if select else dag.keys()` (selection resolution is
repository code outside `src/`).  `fails v` is the job oracle: whether
materializing `v` raises. -/
structure RunCfg where
  keys : List ViewKey
  depKeys : ViewKey → List ViewKey
  selected : List ViewKey
  freeze_unselected : Bool
  print_views : Bool
  dry : Bool
  silent0 : Bool
  cache : List ViewKey
  fail_fast : Bool
  fails : ViewKey → Bool

/-- Engine-owned per-run state: the status structures of `run` plus the
scheduling state of the DAG protocol.  All lists record insertion
order. -/
structure EngState where
  execution_order : List ViewKey
  submissions : List (ViewKey × JobKind)
  started : List ViewKey
  ended : List ViewKey
  exceptions : List ViewKey
  skipped : List ViewKey
  returnedKeys : List ViewKey
  doneKeys : List ViewKey
  deleted : List ViewKey
  deriving DecidableEq, Repr

/-- Initial engine state: empty status structures; `deleted` records the
orphan-cleanup deletions performed before the loop starts. -/
def initState (deleted : List ViewKey) : EngState :=
  ⟨[], [], [], [], [], [], [], [], deleted⟩

/-- Modelled from the spec: internal dependency edges of the DAG
(section 4.2, "build an edge from each view to each of its internal
dependency ViewKeys"; external references get no edge).  The DAG
construction code is outside `src/`. -/
def internalDeps (cfg : RunCfg) (v : ViewKey) : List ViewKey :=
  (cfg.depKeys v).filter (fun d => d ∈ cfg.keys)

/-- Modelled from the spec: `dag.get_ready()` (section 4.2) returns the
managed keys not yet handed out whose internal dependencies are all
done. -/
def getReady (cfg : RunCfg) (st : EngState) : List ViewKey :=
  cfg.keys.filter
    (fun v => decide (v ∉ st.returnedKeys ∧ ∀ d ∈ internalDeps cfg v, d ∈ st.doneKeys))

/-- Modelled from the spec: `dag.is_active()` (section 4.2) is true
while some managed key is not done. -/
def isActive (cfg : RunCfg) (st : EngState) : Bool :=
  cfg.keys.any (fun v => decide (v ∉ st.doneKeys))

/-- Job payload selection of lines 182-196. -/
def jobKind (cfg : RunCfg) (v : ViewKey) : JobKind :=
  if cfg.dry ∨ v ∈ cfg.cache then .noop
  else if cfg.print_views then .printView
  else .materialize

/-- Whether the submitted job for `v` raises when observed: only a
`materialize_view` payload can raise, per the `fails` oracle
(`_do_nothing` never raises; printing a known view kind does not
raise). -/
def jobRaises (cfg : RunCfg) (v : ViewKey) (kind : JobKind) : Bool :=
  kind = JobKind.materialize && cfg.fails v

/-- Embeds the body of `for view_key in dag.get_ready():`
(`src/lea/app/run.py`, lines 166-197) for one ready key: an unselected
key is marked done and nothing else happens; a selected key is appended
to `execution_order`; if some dependency is skipped or errored the key
is skipped and marked done; otherwise a job is submitted and its start
is recorded. -/
def processReady (cfg : RunCfg) (st : EngState) (v : ViewKey) : EngState :=
  if v ∈ cfg.selected then
    let st1 := { st with execution_order := st.execution_order ++ [v] }
    if ∃ d ∈ cfg.depKeys v, d ∈ st1.skipped ∨ d ∈ st1.exceptions then
      { st1 with skipped := st1.skipped ++ [v], doneKeys := st1.doneKeys ++ [v] }
    else
      { st1 with
        submissions := st1.submissions ++ [(v, jobKind cfg v)],
        started := st1.started ++ [v] }
  else
    { st with doneKeys := st.doneKeys ++ [v] }

/-- Embeds the completion scan (`src/lea/app/run.py`, lines 199-208):
walk `jobs_started_at` in insertion order; each job not yet observed is
marked done with its end recorded; if the job raised, the exception is
re-raised out of the loop (`raise exception` on line 207 — the
assignment `exceptions[view_key] = exception` on line 208 is dead
code). -/
def pollJobs (cfg : RunCfg) : List (ViewKey × JobKind) → EngState → Except ViewKey EngState
  | [], st => .ok st
  | (v, kind) :: rest, st =>
    if v ∈ st.ended then
      pollJobs cfg rest st
    else
      let st1 := { st with doneKeys := st.doneKeys ++ [v], ended := st.ended ++ [v] }
      if jobRaises cfg v kind then .error v
      else pollJobs cfg rest st1

/-- One pass of the ready-scan (`for view_key in dag.get_ready():`):
the ready keys are handed out (marked returned by the DAG) and each is
processed in order. -/
def loopStep (cfg : RunCfg) (st : EngState) : EngState :=
  (getReady cfg st).foldl (processReady cfg)
    { st with returnedKeys := st.returnedKeys ++ getReady cfg st }

/-- Embeds `while dag.is_active():` (`src/lea/app/run.py`,
lines 165-210), fuelled: `.ok none` means the fuel ran out before the
loop terminated; `.error v` means the poll scan re-raised the exception
of the job for `v`. -/
def runLoop (cfg : RunCfg) : Nat → EngState → Except ViewKey (Option EngState)
  | 0, _ => .ok none
  | fuel + 1, st =>
    if isActive cfg st then
      match pollJobs cfg (loopStep cfg st).submissions (loopStep cfg st) with
      | .error v => .error v
      | .ok st3 => runLoop cfg fuel st3
    else
      .ok (some st)

/-- How a whole run ends. -/
inductive RunErr where
  | pyFault (e : PyErr)
  | jobException (v : ViewKey)
  | aggregateFailure
  deriving DecidableEq, Repr

/-- Normal result of a run: the final engine state and the set of keys
persisted to the cache artifact. -/
structure RunResult where
  finalState : EngState
  persistedCache : List ViewKey
  deriving DecidableEq, Repr

/-- Embeds `run` (`src/lea/app/run.py`) end to end, in source order:
compute the table reference mapping, sweep orphan tables, drain the DAG
on the worker pool, save the cache, and evaluate the summary block.
`tableRefs` models `client.list_tables()["table_reference"]`. -/
def runModel (stem : PyStr) (username : Option PyStr) (cfg : RunCfg)
    (tableRefs : List PyStr) (fuel : Nat) : Except RunErr (Option RunResult) :=
  match make_table_reference_mapping stem username cfg.keys cfg.selected
      cfg.freeze_unselected with
  | .error e => .error (.pyFault e)
  | .ok _ =>
    match orphanSweep stem cfg.keys cfg.dry tableRefs with
    | .error e => .error (.pyFault e)
    | .ok (deleted, _) =>
      match runLoop cfg fuel (initState deleted) with
      | .error v => .error (.jobException v)
      | .ok none => .ok none
      | .ok (some st) =>
        if runOutcomeRaises (cfg.print_views || cfg.silent0) cfg.fail_fast
            st.exceptions then
          .error .aggregateFailure
        else
          .ok (some ⟨st,
            saveCache cfg.cache st.execution_order st.exceptions st.skipped⟩)

/-! ### Script-defined views (`src/lea/views/python.py`)

The abstract syntax of the parsed script is embedded with the node kinds
the extractor inspects: `ast.Name` (has `.id`), `ast.Attribute` (has
`.value` and `.attr`), string `ast.Constant` (has `.value`), and
`ast.Call` (has `.func` and `.args`).  Attribute access on a node kind
lacking the attribute raises `AttributeError`, which each block of
`PythonView.dependencies` catches; every other exception propagates.

`SQLView.parse_dependencies` lives in repository code outside `src/`.
Modelled from the spec: it takes the query text and yields the
referenced identifiers (section 4.1, "run query string" calls, "extract
the same shape of identifiers from their literal arguments"), so it is a
parameter `pdeps : PyStr → List Dep` here; applied to a first argument
that is not a string constant (an `ast.Attribute` node also has a
`.value`), it raises, and not with `AttributeError`. -/

inductive PExpr where
  | pname (id : PyStr)
  | pattr (value : PExpr) (attrName : PyStr)
  | pstr (s : PyStr)
  | pcall (func : PExpr) (args : List PExpr)

mutual

/-- Embeds `ast.walk`: the node and all its descendants (the traversal
order differs from CPython, which is irrelevant to the extracted set). -/
def walk : PExpr → List PExpr
  | .pname i => [.pname i]
  | .pstr s => [.pstr s]
  | .pattr v a => .pattr v a :: walk v
  | .pcall f args => .pcall f args :: (walk f ++ walkList args)

def walkList : List PExpr → List PExpr
  | [] => []
  | e :: es => walk e ++ walkList es

end

/-- Embeds `node.args[0]` then `parse_dependencies(node.args[0].value)`
inside a `try ... except AttributeError` block: empty `args` raises
`IndexError` (uncaught); a string constant contributes
`pdeps` of its value; an `ast.Attribute` first argument has a `.value`
that is itself a node, on which `parse_dependencies` raises (uncaught);
any other node kind has no `.value`, so the caught `AttributeError`
skips the call. -/
def extractArg {Dep : Type} (pdeps : PyStr → List Dep) (args : List PExpr) :
    Except PyErr (List Dep) :=
  match args with
  | [] => .error .indexError
  | a :: _ =>
    match a with
    | .pstr s => .ok (pdeps s)
    | .pattr _ _ => .error .typeError
    | _ => .ok []

/-- The first recognizer: `node.func.value.id == "pd" and node.func.attr
== "read_gbq"`; on any `func` shape missing those attributes the
comparison raises `AttributeError`, which the enclosing block catches,
so the test simply fails. -/
def isPdReadGbq : PExpr → Bool
  | .pattr (.pname pid) fattr =>
    pid = "pd".toList && fattr = "read_gbq".toList
  | _ => false

/-- The second recognizer: `node.func.attr.startswith("query")`; a
`func` without `.attr` raises the caught `AttributeError`. -/
def isQueryMethod : PExpr → Bool
  | .pattr _ fattr => "query".toList.isPrefixOf fattr
  | _ => false

/-- Embeds the first block of `PythonView.dependencies`
(`src/lea/views/python.py`, lines 19-28): the node is a call recognized
as `pd.read_gbq`. -/
def block1 {Dep : Type} (pdeps : PyStr → List Dep) (node : PExpr) :
    Except PyErr (List Dep) :=
  match node with
  | .pcall func args => if isPdReadGbq func then extractArg pdeps args else .ok []
  | _ => .ok []

/-- Embeds the second block of `PythonView.dependencies`
(`src/lea/views/python.py`, lines 30-35): the node is a call whose
`func.attr` starts with `"query"`. -/
def block2 {Dep : Type} (pdeps : PyStr → List Dep) (node : PExpr) :
    Except PyErr (List Dep) :=
  match node with
  | .pcall func args => if isQueryMethod func then extractArg pdeps args else .ok []
  | _ => .ok []

/-- Fold of both blocks over a node list, in source order (block one
then block two per node), propagating uncaught exceptions. -/
def depsAux {Dep : Type} (pdeps : PyStr → List Dep) :
    List PExpr → Except PyErr (List Dep)
  | [] => .ok []
  | n :: rest =>
    match block1 pdeps n with
    | .error e => .error e
    | .ok d1 =>
      match block2 pdeps n with
      | .error e => .error e
      | .ok d2 =>
        match depsAux pdeps rest with
        | .error e => .error e
        | .ok ds => .ok (d1 ++ d2 ++ ds)

/-- Embeds the `PythonView.dependencies` property: walk the parsed
source and collect the contributions of both recognizer blocks (the
Python `set(...)` makes the result a set; the list here records the
members). -/
def pythonDependencies {Dep : Type} (pdeps : PyStr → List Dep) (tree : PExpr) :
    Except PyErr (List Dep) :=
  depsAux pdeps (walk tree)

/-- A script-defined view: its key and parsed source
(`src/lea/views/python.py`). -/
structure PythonView where
  key : ViewKey
  sourceTree : PExpr

/-- Embeds `PythonView.rename_table_references`
(`src/lea/views/python.py`, lines 53-55): `return self`, the mapping is
ignored. -/
def renameTableReferences (view : PythonView)
    (table_reference_mapping : List (PyStr × PyStr)) : PythonView :=
  view

/-- A call node recognized by either block, carrying a string-constant
first argument `s`. -/
def recognizedLiteral (node : PExpr) (s : PyStr) : Prop :=
  ∃ func rest, node = .pcall func (.pstr s :: rest) ∧
    (isPdReadGbq func = true ∨ isQueryMethod func = true)

/-! ### Concrete fixtures

Small concrete graphs and run configurations used to evaluate the
engine on explicit inputs. -/

def kRawOrders : ViewKey := ["raw".toList, "orders".toList]

def kStagingOrders : ViewKey := ["staging".toList, "orders".toList]

def kRawLegacy : ViewKey := ["raw".toList, "legacy".toList]

/-- One selected view whose materialization fails; fail-fast off. -/
def cfgOneFailing : RunCfg :=
  ⟨[kRawOrders], fun _ => [], [kRawOrders], false, false, false, false, [],
    false, fun _ => true⟩

/-- One selected view whose materialization fails, under a different
key; fail-fast explicitly disabled. -/
def cfgFailFastOff : RunCfg :=
  ⟨[kStagingOrders], fun _ => [], [kStagingOrders], false, false, false, false,
    [], false, fun _ => true⟩

/-- `staging.orders` selected, depending on `raw.orders`. -/
def cfgSkipPair : RunCfg :=
  ⟨[kRawOrders, kStagingOrders],
    fun k => if k = kStagingOrders then [kRawOrders] else [],
    [kStagingOrders], false, false, false, false, [], false, fun _ => false⟩

/-- A state in which `raw.orders` is already skipped. -/
def stSkippedDep : EngState :=
  ⟨[], [], [], [], [], [kRawOrders], [kRawOrders], [kRawOrders], []⟩

/-- Only `raw.orders` is selected. -/
def cfgSelectOne : RunCfg :=
  ⟨[kRawOrders, kStagingOrders], fun _ => [], [kRawOrders], false, false, false,
    false, [], false, fun _ => false⟩

/-- A mid-run state with some recorded status, used to observe that an
unselected ready key changes nothing but the done set. -/
def stMidRun : EngState :=
  ⟨[kRawOrders], [(kRawOrders, JobKind.materialize)], [kRawOrders], [kRawOrders],
    [], [], [kRawOrders], [kRawOrders], [kRawLegacy]⟩

/-- A single-view graph whose job succeeds. -/
def cfgOneOk : RunCfg :=
  ⟨[kRawOrders], fun _ => [], [kRawOrders], false, false, false, false, [],
    false, fun _ => false⟩

/-- Physical tables for the orphan sweep fixture: one present in the
dag, one orphan. -/
def trsOrphanFixture : List PyStr :=
  ["db.raw.orders".toList, "db.raw.legacy".toList]

/-- A script calling `df.query()` with no argument. -/
def treeQueryNoArgs : PExpr :=
  .pcall (.pattr (.pname "df".toList) "query".toList) []

/-- A script calling `pd.read_gbq("SELECT 1")`. -/
def treeReadGbq : PExpr :=
  .pcall (.pattr (.pname "pd".toList) "read_gbq".toList) [.pstr "SELECT 1".toList]

/-! ## Theorems -/

/-! ### String lemmas -/

theorem isPrefixOf_self_append (l t : List Char) : l.isPrefixOf (l ++ t) = true := by
  induction l with
  | nil => simp [List.isPrefixOf]
  | cons c rest ih => simp [List.isPrefixOf, ih]

theorem breakOn_eq_none (c0 : Char) (sep s : List Char) (h : c0 ∉ s) :
    breakOn c0 sep s = none := by
  induction s with
  | nil => simp [breakOn]
  | cons c rest ih =>
    have hc : c0 ≠ c := fun he => h (he ▸ List.mem_cons_self c rest)
    have hr : c0 ∉ rest := fun hm => h (List.mem_cons_of_mem c hm)
    simp [breakOn, List.isPrefixOf, hc, ih hr]

theorem breakOn_boundary (c0 : Char) (sep pre post : List Char) (h : c0 ∉ pre) :
    breakOn c0 sep (pre ++ (c0 :: sep) ++ post) = some (pre, post) := by
  induction pre with
  | nil =>
    simp only [List.nil_append]
    show breakOn c0 sep (c0 :: (sep ++ post)) = some ([], post)
    simp [breakOn, isPrefixOf_self_append, List.drop_left]
  | cons c rest ih =>
    have hc : c0 ≠ c := fun he => h (he ▸ List.mem_cons_self c rest)
    have hr : c0 ∉ rest := fun hm => h (List.mem_cons_of_mem c hm)
    have hstep := ih hr
    simp only [List.append_assoc, List.cons_append] at hstep
    simp [breakOn, List.isPrefixOf, hc, hstep]

theorem splitOnGo_fuel (c0 : Char) (sep : List Char) (f1 f2 : Nat) (s : List Char)
    (h1 : s.length ≤ f1) (h2 : s.length ≤ f2) :
    splitOnGo c0 sep f1 s = splitOnGo c0 sep f2 s := by
  induction f1 generalizing f2 s with
  | zero =>
    cases s with
    | nil => cases f2 <;> rfl
    | cons c rest => simp at h1
  | succ a ih =>
    cases s with
    | nil => cases f2 <;> rfl
    | cons c rest =>
      cases f2 with
      | zero => simp at h2
      | succ b =>
        simp only [List.length_cons] at h1 h2
        show splitOnGo c0 sep (a + 1) (c :: rest) = splitOnGo c0 sep (b + 1) (c :: rest)
        rw [splitOnGo, splitOnGo]
        by_cases hp : (c0 :: sep).isPrefixOf (c :: rest)
        · rw [if_pos hp, if_pos hp]
          have hd : (rest.drop sep.length).length ≤ rest.length := by
            rw [List.length_drop]
            omega
          rw [ih b (rest.drop sep.length) (by omega) (by omega)]
        · rw [if_neg hp, if_neg hp]
          rw [ih b rest (by omega) (by omega)]

theorem splitOn_eq_single (c0 : Char) (sep s : List Char) (h : c0 ∉ s) :
    splitOn c0 sep s = [s] := by
  induction s with
  | nil => rfl
  | cons c rest ih =>
    have hc : c0 ≠ c := fun he => h (he ▸ List.mem_cons_self c rest)
    have hr : c0 ∉ rest := fun hm => h (List.mem_cons_of_mem c hm)
    show splitOnGo c0 sep (c :: rest).length (c :: rest) = [c :: rest]
    simp only [List.length_cons]
    rw [splitOnGo]
    rw [if_neg (by simp [List.isPrefixOf, hc])]
    have hrest : splitOnGo c0 sep rest.length rest = [rest] := ih hr
    rw [hrest]

theorem splitOn_boundary (c0 : Char) (sep x t : List Char) (h : c0 ∉ x) :
    splitOn c0 sep (x ++ (c0 :: sep) ++ t) = x :: splitOn c0 sep t := by
  induction x with
  | nil =>
    show splitOnGo c0 sep ((c0 :: sep) ++ t).length ((c0 :: sep) ++ t) =
      [] :: splitOn c0 sep t
    simp only [List.cons_append, List.length_cons]
    rw [splitOnGo]
    rw [if_pos (by simpa using isPrefixOf_self_append (c0 :: sep) t)]
    rw [List.drop_left]
    congr 1
    exact splitOnGo_fuel c0 sep (sep ++ t).length t.length t (by simp) (le_refl _)
  | cons c rest ih =>
    have hc : c0 ≠ c := fun he => h (he ▸ List.mem_cons_self c rest)
    have hr : c0 ∉ rest := fun hm => h (List.mem_cons_of_mem c hm)
    have hstep := ih hr
    show splitOnGo c0 sep ((c :: rest) ++ (c0 :: sep) ++ t).length _ =
      (c :: rest) :: splitOn c0 sep t
    simp only [List.cons_append, List.length_cons]
    rw [splitOnGo]
    rw [if_neg (by simp [List.isPrefixOf, hc])]
    have hrw : splitOnGo c0 sep (rest ++ (c0 :: sep) ++ t).length
        (rest ++ (c0 :: sep) ++ t) = rest :: splitOn c0 sep t := hstep
    simp only [List.append_assoc, List.cons_append] at hrw ⊢
    rw [hrw]

theorem splitOn_joinSep (c0 : Char) (sep : List Char) (xs : List (List Char))
    (hne : xs ≠ []) (h : ∀ x ∈ xs, c0 ∉ x) :
    splitOn c0 sep (joinSep (c0 :: sep) xs) = xs := by
  induction xs with
  | nil => exact absurd rfl hne
  | cons x rest ih =>
    match rest with
    | [] =>
      exact splitOn_eq_single c0 sep x (h x (List.mem_cons_self x []))
    | y :: rest' =>
      rw [joinSep]
      rw [splitOn_boundary c0 sep x _ (h x (List.mem_cons_self x _))]
      rw [ih (by simp) (fun z hz => h z (List.mem_cons_of_mem x hz))]

/-! ### Engine invariants

The loop never appends to `exceptions` (the recording statement on line
208 of `run.py` is dead code behind the `raise`), and never touches the
pre-loop `deleted` record. -/

theorem processReady_untouched (cfg : RunCfg) (st : EngState) (v : ViewKey) :
    (processReady cfg st v).exceptions = st.exceptions ∧
    (processReady cfg st v).deleted = st.deleted := by
  unfold processReady
  by_cases h1 : v ∈ cfg.selected
  · by_cases h2 : ∃ d ∈ cfg.depKeys v, d ∈ st.skipped ∨ d ∈ st.exceptions
    · simp [h1, h2]
    · simp [h1, h2]
  · simp [h1]

theorem foldl_processReady_untouched (cfg : RunCfg) (l : List ViewKey) (st : EngState) :
    (l.foldl (processReady cfg) st).exceptions = st.exceptions ∧
    (l.foldl (processReady cfg) st).deleted = st.deleted := by
  induction l generalizing st with
  | nil => exact ⟨rfl, rfl⟩
  | cons v rest ih =>
    rw [List.foldl_cons]
    refine ⟨?_, ?_⟩
    · rw [(ih (processReady cfg st v)).1, (processReady_untouched cfg st v).1]
    · rw [(ih (processReady cfg st v)).2, (processReady_untouched cfg st v).2]

theorem pollJobs_untouched (cfg : RunCfg) (l : List (ViewKey × JobKind))
    (st st' : EngState) (h : pollJobs cfg l st = .ok st') :
    st'.exceptions = st.exceptions ∧ st'.deleted = st.deleted := by
  induction l generalizing st with
  | nil =>
    unfold pollJobs at h
    cases h
    exact ⟨rfl, rfl⟩
  | cons p rest ih =>
    obtain ⟨v, kind⟩ := p
    unfold pollJobs at h
    by_cases he : v ∈ st.ended
    · rw [if_pos he] at h
      exact ih st h
    · rw [if_neg he] at h
      by_cases hr : jobRaises cfg v kind
      · simp [hr] at h
      · simp only [hr, if_false, Bool.false_eq_true, if_neg] at h
        have h' := ih _ h
        exact h'

theorem runLoop_untouched (cfg : RunCfg) (fuel : Nat) (st st' : EngState)
    (h : runLoop cfg fuel st = .ok (some st')) :
    st'.exceptions = st.exceptions ∧ st'.deleted = st.deleted := by
  induction fuel generalizing st with
  | zero => simp [runLoop] at h
  | succ n ih =>
    unfold runLoop at h
    by_cases ha : isActive cfg st
    · rw [if_pos ha] at h
      cases hp : pollJobs cfg (loopStep cfg st).submissions (loopStep cfg st) with
      | error v => rw [hp] at h; cases h
      | ok st3 =>
        rw [hp] at h
        have h3 := pollJobs_untouched cfg (loopStep cfg st).submissions (loopStep cfg st) st3 hp
        have h2 := foldl_processReady_untouched cfg (getReady cfg st)
          { st with returnedKeys := st.returnedKeys ++ getReady cfg st }
        have h0 := ih st3 h
        refine ⟨?_, ?_⟩
        · rw [h0.1, h3.1]
          exact h2.1
        · rw [h0.2, h3.2]
          exact h2.2
    · rw [if_neg ha] at h
      cases h
      exact ⟨rfl, rfl⟩

/-! ### Orphan sweep -/

theorem orphanSweep_spec (stem : PyStr) (dagKeys : List ViewKey) (dry : Bool)
    (trs : List PyStr) (dels : List ViewKey) (reps : List PyStr)
    (h : orphanSweep stem dagKeys dry trs = .ok (dels, reps)) :
    (∀ k, k ∈ dels ↔ (dry = false ∧ k ∉ dagKeys ∧
        ∃ tr ∈ trs, table_reference_to_view_key stem tr = some k)) ∧
    ((trs.filterMap (table_reference_to_view_key stem)).Nodup → dels.Nodup) ∧
    (dry = true → dels = []) := by
  induction trs generalizing dels reps with
  | nil =>
    unfold orphanSweep at h
    cases h
    refine ⟨fun k => ?_, fun _ => List.nodup_nil, fun _ => rfl⟩
    simp
  | cons tr rest ih =>
    unfold orphanSweep at h
    cases hc : table_reference_to_view_key stem tr with
    | none => rw [hc] at h; cases h
    | some k =>
      rw [hc] at h
      dsimp only at h
      by_cases hin : k ∈ dagKeys
      · rw [if_pos hin] at h
        obtain ⟨hiff, hnd, hdry⟩ := ih dels reps h
        refine ⟨fun k' => ?_, fun hnodup => ?_, hdry⟩
        · rw [hiff k']
          constructor
          · rintro ⟨hd, hk, tr', htr', hconv⟩
            exact ⟨hd, hk, tr', List.mem_cons_of_mem tr htr', hconv⟩
          · rintro ⟨hd, hk, tr', htr', hconv⟩
            rcases List.mem_cons.mp htr' with rfl | hm
            · rw [hconv] at hc
              cases hc
              exact absurd hin hk
            · exact ⟨hd, hk, tr', hm, hconv⟩
        · apply hnd
          rw [List.filterMap_cons, hc] at hnodup
          exact hnodup.of_cons
      · rw [if_neg hin] at h
        cases hrest : orphanSweep stem dagKeys dry rest with
        | error e => rw [hrest] at h; cases h
        | ok p =>
          obtain ⟨dels', reps'⟩ := p
          rw [hrest] at h
          cases h
          obtain ⟨hiff, hnd, hdry⟩ := ih dels' reps' hrest
          refine ⟨fun k' => ?_, fun hnodup => ?_, fun hd => ?_⟩
          · by_cases hdryc : dry = true
            · rw [if_pos hdryc, hiff k']
              simp [hdryc]
            · have hdf : dry = false := by
                cases dry
                · rfl
                · exact absurd rfl hdryc
              rw [if_neg hdryc, List.mem_cons, hiff k']
              constructor
              · rintro (rfl | ⟨_, hk, tr', htr', hconv⟩)
                · exact ⟨hdf, hin, tr, List.mem_cons_self tr rest, hc⟩
                · exact ⟨hdf, hk, tr', List.mem_cons_of_mem tr htr', hconv⟩
              · rintro ⟨_, hk, tr', htr', hconv⟩
                rcases List.mem_cons.mp htr' with rfl | hm
                · rw [hconv] at hc
                  cases hc
                  exact Or.inl rfl
                · exact Or.inr ⟨hdf, hk, tr', hm, hconv⟩
          · rw [List.filterMap_cons, hc] at hnodup
            by_cases hdryc : dry = true
            · rw [if_pos hdryc]
              exact hnd hnodup.of_cons
            · rw [if_neg hdryc]
              refine List.nodup_cons.mpr ⟨fun hmem => ?_, hnd hnodup.of_cons⟩
              obtain ⟨_, _, tr', htr', hconv⟩ := (hiff k).mp hmem
              have hkmem : k ∈ rest.filterMap (table_reference_to_view_key stem) :=
                List.mem_filterMap.mpr ⟨tr', htr', hconv⟩
              exact (List.nodup_cons.mp hnodup).1 hkmem
          · rw [if_pos hd]
            exact hdry hd

/-! ### Claim theorems -/

/-- Claim C1.  The claim says a failing job's materialization error is
caught at the job boundary, recorded in the errored set keyed by
ViewKey, and the poll loop continues.  The code instead re-raises the
job's exception out of the poll loop (`raise exception`, line 207 of
`run.py`), aborting the run before the statement that would record it
(line 208, dead code): on a one-view graph whose materialization fails,
the run ends with that job's exception as a control-flow fault. -/
theorem claim1_exception_escapes_poll_loop :
    runModel "db".toList none cfgOneFailing [] 2 =
      .error (.jobException kRawOrders) := by
  rfl

/-- Claim C2.  With `freeze_unselected = true`,
`_make_table_reference_mapping` raises `NameError` on the undefined
name `select` (line 64 of `run.py`) for every input — it never returns
the mapping over the selected keys that the claim describes (and the
dictionary built from `selected_view_keys` on lines 66-69 is never
returned anyway). -/
theorem claim2_freeze_unselected_raises (stem : PyStr) (username : Option PyStr)
    (dagKeys selected : List ViewKey) :
    make_table_reference_mapping stem username dagKeys selected true =
      .error .nameError := by
  rfl

/-- Claim C3, counterexample.  A view present in the loaded cache and in
the skipped set of this run: the code persists it (the restriction is
applied only to this run's executed views), while the claim says it is
not persisted. -/
theorem claim3_counterexample :
    saveCache [kRawOrders] [kRawOrders] [] [kRawOrders] = [kRawOrders] ∧
    saveCacheClaimed [kRawOrders] [kRawOrders] [] [kRawOrders] = [] := by
  constructor
  · rfl
  · rfl

/-- Claim C3, amended.  Membership in the persisted cache: empty when no
view errored and none was skipped; otherwise a view is persisted iff it
is in the previous cache, or it was executed this run and is neither
errored nor skipped.  The previous cache is not restricted. -/
theorem claim3_amended (cache eo ex sk : List ViewKey) (v : ViewKey) :
    v ∈ saveCache cache eo ex sk ↔
      (¬(ex = [] ∧ sk = []) ∧ (v ∈ cache ∨ (v ∈ eo ∧ v ∉ ex ∧ v ∉ sk))) := by
  unfold saveCache
  by_cases h : ex = [] ∧ sk = []
  · simp [h]
  · simp only [if_neg h, List.mem_append, List.mem_filter, decide_eq_true_eq]
    tauto

/-- Claim C4, counterexample.  With fail-fast disabled and a
materialization error, the claim says the run returns normally; the
code instead re-raises the job's own exception from the poll loop. -/
theorem claim4_counterexample :
    cfgFailFastOff.fail_fast = false ∧
    runModel "db".toList none cfgFailFastOff [] 2 =
      .error (.jobException kStagingOrders) := by
  constructor
  · rfl
  · rfl

/-- Claim C4, amended.  A run that completes its loop has an empty
errored set (errors abort the run from inside the poll loop instead of
being recorded), so the aggregate `Exception("Some views failed to
build")` is never raised; moreover the summary block's raise is gated
on fail-fast AND a nonempty errored set AND the run being neither
silent nor print-only. -/
theorem claim4_amended (stem : PyStr) (username : Option PyStr) (cfg : RunCfg)
    (tableRefs : List PyStr) (fuel : Nat) (res : RunResult)
    (h : runModel stem username cfg tableRefs fuel = .ok (some res)) :
    res.finalState.exceptions = [] ∧
    runModel stem username cfg tableRefs fuel ≠ .error .aggregateFailure ∧
    (∀ (silent ff : Bool) (ex : List ViewKey),
        runOutcomeRaises silent ff ex = true ↔
          (silent = false ∧ ff = true ∧ ex ≠ [])) := by
  refine ⟨?_, ?_, ?_⟩
  · unfold runModel at h
    cases hm : make_table_reference_mapping stem username cfg.keys cfg.selected
        cfg.freeze_unselected with
    | error e => rw [hm] at h; cases h
    | ok m =>
      rw [hm] at h
      dsimp only at h
      cases hs : orphanSweep stem cfg.keys cfg.dry tableRefs with
      | error e => rw [hs] at h; cases h
      | ok p =>
        obtain ⟨deleted, reported⟩ := p
        rw [hs] at h
        dsimp only at h
        cases hl : runLoop cfg fuel (initState deleted) with
        | error v => rw [hl] at h; cases h
        | ok o =>
          cases o with
          | none => rw [hl] at h; cases h
          | some st =>
            rw [hl] at h
            dsimp only at h
            by_cases hout : runOutcomeRaises (cfg.print_views || cfg.silent0)
                cfg.fail_fast st.exceptions
            · rw [if_pos hout] at h; cases h
            · rw [if_neg hout] at h
              cases h
              exact (runLoop_untouched cfg fuel (initState deleted) st hl).1
  · rw [h]
    intro hcontra
    cases hcontra
  · intro silent ff ex
    unfold runOutcomeRaises
    by_cases hsil : silent = true
    · simp [hsil]
    · have hsf : silent = false := by
        cases silent
        · rfl
        · exact absurd rfl hsil
      by_cases hex : ex = []
      · simp [hsf, hex]
      · simp [hsf, hex]

/-- Claim C4, witness: a one-view run that succeeds, evaluated
explicitly. -/
theorem claim4_witness :
    (⟨⟨[kRawOrders], [(kRawOrders, JobKind.materialize)], [kRawOrders],
        [kRawOrders], [], [], [kRawOrders], [kRawOrders], []⟩, []⟩ :
      RunResult).finalState.exceptions = [] ∧
    runModel "db".toList none cfgOneOk [] 2 ≠ .error .aggregateFailure ∧
    (∀ (silent ff : Bool) (ex : List ViewKey),
        runOutcomeRaises silent ff ex = true ↔
          (silent = false ∧ ff = true ∧ ex ≠ [])) :=
  claim4_amended "db".toList none cfgOneOk [] 2
    ⟨⟨[kRawOrders], [(kRawOrders, JobKind.materialize)], [kRawOrders],
        [kRawOrders], [], [], [kRawOrders], [kRawOrders], []⟩, []⟩ (by rfl)

/-- Claim C5.  For a selected ready key with a dependency in the
skipped set or in the errored set: the key is appended to the execution
order, added to the skipped set and marked done — and nothing else
changes: no job is submitted, no start or end is recorded, no error is
recorded. -/
theorem claim5_skip_cascade (cfg : RunCfg) (st : EngState) (v : ViewKey)
    (hsel : v ∈ cfg.selected)
    (hdep : ∃ d ∈ cfg.depKeys v, d ∈ st.skipped ∨ d ∈ st.exceptions) :
    processReady cfg st v = { st with
      execution_order := st.execution_order ++ [v],
      skipped := st.skipped ++ [v],
      doneKeys := st.doneKeys ++ [v] } := by
  simp [processReady, hsel, hdep]

/-- Claim C5, witness: `staging.orders` ready while its dependency
`raw.orders` is skipped. -/
theorem claim5_witness :
    processReady cfgSkipPair stSkippedDep kStagingOrders = { stSkippedDep with
      execution_order := stSkippedDep.execution_order ++ [kStagingOrders],
      skipped := stSkippedDep.skipped ++ [kStagingOrders],
      doneKeys := stSkippedDep.doneKeys ++ [kStagingOrders] } :=
  claim5_skip_cascade cfgSkipPair stSkippedDep kStagingOrders
    (by decide)
    ⟨kRawOrders, by decide, Or.inl (by decide)⟩

/-- Claim C6.  A ready key outside the selected target set is only
marked done: the execution order, submissions, start and end records,
errored set and skipped set are all untouched. -/
theorem claim6_unselected_done_only (cfg : RunCfg) (st : EngState) (v : ViewKey)
    (h : v ∉ cfg.selected) :
    processReady cfg st v = { st with doneKeys := st.doneKeys ++ [v] } := by
  simp [processReady, h]

/-- Claim C6, witness: `staging.orders` is ready but not selected, in a
mid-run state carrying nonempty status records. -/
theorem claim6_witness :
    processReady cfgSelectOne stMidRun kStagingOrders =
      { stMidRun with doneKeys := stMidRun.doneKeys ++ [kStagingOrders] } :=
  claim6_unselected_done_only cfgSelectOne stMidRun kStagingOrders (by decide)

/-- Claim C7.  Under the hypotheses that every enumerated table
reference converts to a key and that the converted keys are distinct:
a key is deleted iff the run is not dry, the key is absent from the
dag, and some enumerated reference derives it; deletions are free of
duplicates (each orphan is deleted exactly once); under dry-run nothing
is deleted; and in any completed run over the same store the recorded
deletions are exactly this sweep — performed before the loop and
untouched by job dispatch. -/
theorem claim7_orphan_cleanup (stem : PyStr) (dagKeys : List ViewKey)
    (dry : Bool) (trs : List PyStr) (dels : List ViewKey) (reps : List PyStr)
    (h : orphanSweep stem dagKeys dry trs = .ok (dels, reps))
    (hnd : (trs.filterMap (table_reference_to_view_key stem)).Nodup) :
    (∀ k, k ∈ dels ↔ (dry = false ∧ k ∉ dagKeys ∧
        ∃ tr ∈ trs, table_reference_to_view_key stem tr = some k)) ∧
    dels.Nodup ∧
    (dry = true → dels = []) ∧
    (∀ (username : Option PyStr) (cfg : RunCfg) (fuel : Nat) (res : RunResult),
        cfg.keys = dagKeys → cfg.dry = dry →
        runModel stem username cfg trs fuel = .ok (some res) →
        res.finalState.deleted = dels) := by
  obtain ⟨hiff, hndels, hdry⟩ := orphanSweep_spec stem dagKeys dry trs dels reps h
  refine ⟨hiff, hndels hnd, hdry, ?_⟩
  intro username cfg fuel res hk hd hrun
  unfold runModel at hrun
  cases hm : make_table_reference_mapping stem username cfg.keys cfg.selected
      cfg.freeze_unselected with
  | error e => rw [hm] at hrun; cases hrun
  | ok m =>
    rw [hm] at hrun
    dsimp only at hrun
    rw [hk, hd, h] at hrun
    dsimp only at hrun
    cases hl : runLoop cfg fuel (initState dels) with
    | error v => rw [hl] at hrun; cases hrun
    | ok o =>
      cases o with
      | none => rw [hl] at hrun; cases hrun
      | some st =>
        rw [hl] at hrun
        dsimp only at hrun
        by_cases hout : runOutcomeRaises (cfg.print_views || cfg.silent0)
            cfg.fail_fast st.exceptions
        · rw [if_pos hout] at hrun; cases hrun
        · rw [if_neg hout] at hrun
          cases hrun
          exact (runLoop_untouched cfg fuel (initState dels) st hl).2

/-- Claim C7, witness: store `db` holds `db.raw.orders` (in the dag)
and `db.raw.legacy` (an orphan); the orphan is deleted once and a
one-view run records exactly that deletion. -/
theorem claim7_witness :
    (∀ k, k ∈ [kRawLegacy] ↔ (false = false ∧ k ∉ [kRawOrders] ∧
        ∃ tr ∈ trsOrphanFixture,
          table_reference_to_view_key "db".toList tr = some k)) ∧
    List.Nodup [kRawLegacy] ∧
    (false = true → [kRawLegacy] = ([] : List ViewKey)) ∧
    (∀ (username : Option PyStr) (cfg : RunCfg) (fuel : Nat) (res : RunResult),
        cfg.keys = [kRawOrders] → cfg.dry = false →
        runModel "db".toList username cfg trsOrphanFixture fuel =
          .ok (some res) →
        res.finalState.deleted = [kRawLegacy]) :=
  claim7_orphan_cleanup "db".toList [kRawOrders] false trsOrphanFixture
    [kRawLegacy] ["db.raw.legacy".toList] (by rfl) (by decide)

/-- Claim C8, counterexample.  The key `("db", "t")` is non-empty and
its components contain neither the dot nor any character of the
flattening separator, yet when the client's database stem is `db` the
roundtrip does not return the key: converting back strips the leading
`db` as a database qualifier and then `leftover.split(".", 1)` raises
`ValueError`. -/
theorem claim8_counterexample :
    (∀ r ∈ [("db".toList : PyStr), "t".toList], ('.' : Char) ∉ r ∧ ('_' : Char) ∉ r) ∧
    view_key_to_table_reference "db".toList none ["db".toList, "t".toList] false =
      some "db.t".toList ∧
    table_reference_to_view_key "db".toList "db.t".toList = none := by
  refine ⟨by decide, by rfl, by rfl⟩

/-- Claim C8, amended.  The roundtrip is the identity for keys with at
least two components, whose components contain neither the dot nor the
underscore (the separator's character), and whose first component
differs from the client's database stem; no username scope is
applied. -/
theorem claim8_amended (stem schema : PyStr) (rest : List PyStr)
    (hne : rest ≠ [])
    (hschema : ('.' : Char) ∉ schema)
    (hstem : schema ≠ stem)
    (hcomps : ∀ r ∈ rest, ('.' : Char) ∉ r ∧ ('_' : Char) ∉ r) :
    (view_key_to_table_reference stem none (schema :: rest) false).bind
      (table_reference_to_view_key stem) = some (schema :: rest) := by
  have hb : breakOn '.' [] (schema ++ ('.' :: []) ++ joinSep sepSEP rest) =
      some (schema, joinSep sepSEP rest) :=
    breakOn_boundary '.' [] schema (joinSep sepSEP rest) hschema
  simp only [List.append_assoc, List.cons_append, List.nil_append] at hb
  have hs : splitOn '_' ['_'] (joinSep sepSEP rest) = rest :=
    splitOn_joinSep '_' ['_'] rest hne (fun r hr => (hcomps r hr).2)
  unfold view_key_to_table_reference
  simp only [usernameTruthy, Bool.false_and, Bool.and_false, if_neg,
    Bool.false_eq_true, not_false_eq_true, if_false, Option.some_bind]
  unfold table_reference_to_view_key
  rw [hb]
  dsimp only
  rw [if_neg hstem, hs]

/-- Claim C8, witness: the key `("raw", "orders")` satisfies the
amended hypotheses against stem `db` and roundtrips to itself. -/
theorem claim8_witness :
    (view_key_to_table_reference "db".toList none
        ["raw".toList, "orders".toList] false).bind
      (table_reference_to_view_key "db".toList) =
      some ["raw".toList, "orders".toList] :=
  claim8_amended "db".toList "raw".toList ["orders".toList]
    (by decide) (by decide) (by decide) (by decide)

/-- Helper for C9: a non-empty successful `extractArg` comes from a
string-constant first argument. -/
theorem extractArg_ok {Dep : Type} (pdeps : PyStr → List Dep) (args : List PExpr)
    (ds : List Dep) (h : extractArg pdeps args = .ok ds) (hne : ds ≠ []) :
    ∃ s rest, args = .pstr s :: rest ∧ ds = pdeps s := by
  cases args with
  | nil => cases h
  | cons a rest =>
    cases a with
    | pname i =>
      simp only [extractArg, Except.ok.injEq] at h
      exact absurd h.symm hne
    | pattr v attr2 => cases h
    | pstr s =>
      simp only [extractArg, Except.ok.injEq] at h
      exact ⟨s, rest, rfl, h.symm⟩
    | pcall f as2 =>
      simp only [extractArg, Except.ok.injEq] at h
      exact absurd h.symm hne

/-- Helper for C9: a non-empty successful `block1` result comes from a
recognized `pd.read_gbq` call with a string-constant first argument. -/
theorem block1_ok {Dep : Type} (pdeps : PyStr → List Dep) (node : PExpr)
    (ds : List Dep) (h : block1 pdeps node = .ok ds) (hne : ds ≠ []) :
    ∃ func s rest, node = .pcall func (.pstr s :: rest) ∧
      isPdReadGbq func = true ∧ ds = pdeps s := by
  cases node with
  | pname i =>
    simp only [block1, Except.ok.injEq] at h
    exact absurd h.symm hne
  | pattr v a =>
    simp only [block1, Except.ok.injEq] at h
    exact absurd h.symm hne
  | pstr s =>
    simp only [block1, Except.ok.injEq] at h
    exact absurd h.symm hne
  | pcall func args =>
    unfold block1 at h
    dsimp only at h
    by_cases hf : isPdReadGbq func
    · rw [if_pos hf] at h
      obtain ⟨s, rest, hargs, hds⟩ := extractArg_ok pdeps args ds h hne
      exact ⟨func, s, rest, by rw [hargs], hf, hds⟩
    · rw [if_neg hf] at h
      simp only [Except.ok.injEq] at h
      exact absurd h.symm hne

/-- Helper for C9: a non-empty successful `block2` result comes from a
recognized `query*` method call with a string-constant first
argument. -/
theorem block2_ok {Dep : Type} (pdeps : PyStr → List Dep) (node : PExpr)
    (ds : List Dep) (h : block2 pdeps node = .ok ds) (hne : ds ≠ []) :
    ∃ func s rest, node = .pcall func (.pstr s :: rest) ∧
      isQueryMethod func = true ∧ ds = pdeps s := by
  cases node with
  | pname i =>
    simp only [block2, Except.ok.injEq] at h
    exact absurd h.symm hne
  | pattr v a =>
    simp only [block2, Except.ok.injEq] at h
    exact absurd h.symm hne
  | pstr s =>
    simp only [block2, Except.ok.injEq] at h
    exact absurd h.symm hne
  | pcall func args =>
    unfold block2 at h
    dsimp only at h
    by_cases hf : isQueryMethod func
    · rw [if_pos hf] at h
      obtain ⟨s, rest, hargs, hds⟩ := extractArg_ok pdeps args ds h hne
      exact ⟨func, s, rest, by rw [hargs], hf, hds⟩
    · rw [if_neg hf] at h
      simp only [Except.ok.injEq] at h
      exact absurd h.symm hne

/-- Helper for C9: soundness of the fold over a node list. -/
theorem depsAux_sound {Dep : Type} (pdeps : PyStr → List Dep) (l : List PExpr)
    (ds : List Dep) (h : depsAux pdeps l = .ok ds) :
    ∀ d ∈ ds, ∃ n ∈ l, ∃ s, recognizedLiteral n s ∧ d ∈ pdeps s := by
  induction l generalizing ds with
  | nil =>
    simp only [depsAux, Except.ok.injEq] at h
    subst h
    intro d hd
    cases hd
  | cons n rest ih =>
    unfold depsAux at h
    cases h1 : block1 pdeps n with
    | error e => rw [h1] at h; cases h
    | ok d1 =>
      rw [h1] at h
      dsimp only at h
      cases h2 : block2 pdeps n with
      | error e => rw [h2] at h; cases h
      | ok d2 =>
        rw [h2] at h
        dsimp only at h
        cases h3 : depsAux pdeps rest with
        | error e => rw [h3] at h; cases h
        | ok ds' =>
          rw [h3] at h
          dsimp only at h
          cases h
          intro d hd
          rcases List.mem_append.mp hd with hd12 | hd3
          · rcases List.mem_append.mp hd12 with hd1 | hd2
            · have hne : d1 ≠ [] := fun hnil => by
                rw [hnil] at hd1
                cases hd1
              obtain ⟨func, s, rest', hnode, hrec, hds⟩ :=
                block1_ok pdeps n d1 h1 hne
              refine ⟨n, List.mem_cons_self n rest, s,
                ⟨func, rest', hnode, Or.inl hrec⟩, ?_⟩
              rw [← hds]
              exact hd1
            · have hne : d2 ≠ [] := fun hnil => by
                rw [hnil] at hd2
                cases hd2
              obtain ⟨func, s, rest', hnode, hrec, hds⟩ :=
                block2_ok pdeps n d2 h2 hne
              refine ⟨n, List.mem_cons_self n rest, s,
                ⟨func, rest', hnode, Or.inr hrec⟩, ?_⟩
              rw [← hds]
              exact hd2
          · obtain ⟨n', hn', s, hrec, hmem⟩ := ih ds' h3 d hd3
            exact ⟨n', List.mem_cons_of_mem n hn', s, hrec, hmem⟩

/-- Claim C9, counterexample.  `df.query()` — a call recognized by the
`query*` block but with an empty argument list — raises `IndexError`
(`node.args[0]`), which is not an `AttributeError` and therefore is not
caught: extraction fails on this call shape. -/
theorem claim9_counterexample :
    pythonDependencies (fun s => [s]) treeQueryNoArgs = .error .indexError := by
  rfl

/-- Claim C9, amended.  Soundness of the extractor: whenever
`dependencies` succeeds, every extracted identifier comes from a call
recognized as `pd.read_gbq` or as a `query*` method, applied to the
string-constant first argument of that call.  (Shape mismatches that
raise `AttributeError` are silently skipped, but a recognized call with
no arguments raises an uncaught `IndexError` — see the
counterexample — so extraction is not total.) -/
theorem claim9_amended {Dep : Type} (pdeps : PyStr → List Dep) (tree : PExpr)
    (ds : List Dep) (h : pythonDependencies pdeps tree = .ok ds) :
    ∀ d ∈ ds, ∃ node ∈ walk tree, ∃ s, recognizedLiteral node s ∧ d ∈ pdeps s :=
  depsAux_sound pdeps (walk tree) ds h

/-- Claim C9, witness: `pd.read_gbq("SELECT 1")` extracts exactly the
contribution of its literal argument. -/
theorem claim9_witness :
    ∃ node ∈ walk treeReadGbq, ∃ s,
      recognizedLiteral node s ∧ ("SELECT 1".toList : PyStr) ∈ [s] :=
  claim9_amended (fun s => [s]) treeReadGbq ["SELECT 1".toList] rfl
    "SELECT 1".toList (by decide)

/-- Claim C10.  `PythonView.rename_table_references` returns the view
itself unchanged for every mapping: script-defined views are never
rewritten. -/
theorem claim10_rename_is_identity (view : PythonView)
    (table_reference_mapping : List (PyStr × PyStr)) :
    renameTableReferences view table_reference_mapping = view :=
  rfl

end Lea
